import Mathlib

/-!
Verification of `bip39-lastword` (src/bip39-lastword.py, src/tools/bip39-lastword.py).

The program derives the 12th BIP39 word from the first 11 words of a 12-word
mnemonic.  We embed its core shallowly:

* bit strings (python builds binary digit strings such as `f"{i:011b}"`) become
  `List Bool`, most significant bit first;
* byte strings become `List Nat` with every entry below 256;
* SHA-256 (python's `hashlib.sha256`) is implemented in full over byte lists;
* the reference wordlist is a parameter `wl : List String`, exactly as the
  source receives it from the external `mnemonic` library (`mnemo.wordlist`);
  the source's dict `{w: i for i, w in enumerate(mnemo.wordlist)}` and the
  library's `wordlist.index` are both modelled by `List.findIdx?`, which
  coincides with them on a duplicate-free wordlist (the reference wordlist is
  a bijection between 2048 words and their indices);
* `wordlist[last_index]` is modelled by `List.getD _ _ ""`; the default is
  never used because `last_index < 2048` (proved below);
* exceptions become an `Except LWError` result.
-/

namespace Bip39LastWord

/-- Binary digit recursion with structural fuel, so that the kernel can
evaluate it; `n` itself bounds the digit count of `n`. -/
def binDigitsGo : Nat → Nat → List Bool
  | _, 0 => []
  | 0, _ + 1 => []
  | fuel + 1, n + 1 => binDigitsGo fuel ((n + 1) / 2) ++ [(n + 1) % 2 == 1]

/-- Big-endian binary digits of `n`; empty for `n = 0` (python's `bin` output
without its leading `0b` and, for zero, without the single `"0"`; `padBin`
restores that digit). -/
def binDigits (n : Nat) : List Bool := binDigitsGo n n

/-- Python `f"{n:0{w}b}"`: the binary digits of `n` left-padded with zeros to
width `w` (longer than `w` when `n` needs more than `w` digits). -/
def padBin (w n : Nat) : List Bool :=
  let d := if n = 0 then [false] else binDigits n
  List.replicate (w - d.length) false ++ d

/-- Python `int(bits, 2)`: the value of a big-endian bit string. -/
def bitsToNat (bs : List Bool) : Nat :=
  bs.foldl (fun a b => 2 * a + (if b then 1 else 0)) 0

/-- Python `n.to_bytes(k, "big")`: `k` bytes, most significant first. -/
def natToBEBytes (k n : Nat) : List Nat :=
  (List.range k).map (fun i => (n >>> (8 * (k - 1 - i))) % 256)

/-! ### SHA-256 (python `hashlib.sha256(...).digest()`) over byte lists -/

/-- The modulus `2^32` of SHA-256 word arithmetic. -/
def M32 : Nat := 4294967296

/-- Right rotation of a 32-bit word. -/
def rotr32 (n x : Nat) : Nat := ((x >>> n) ||| (x <<< (32 - n))) % M32

/-- SHA-256 `Ch(x, y, z) = (x ∧ y) ⊕ (¬x ∧ z)` on 32-bit words. -/
def shaCh (x y z : Nat) : Nat := (x &&& y) ^^^ ((x ^^^ (M32 - 1)) &&& z)

/-- SHA-256 `Maj(x, y, z)`. -/
def shaMaj (x y z : Nat) : Nat := (x &&& y) ^^^ (x &&& z) ^^^ (y &&& z)

/-- SHA-256 `Σ₀`. -/
def bSig0 (x : Nat) : Nat := rotr32 2 x ^^^ rotr32 13 x ^^^ rotr32 22 x

/-- SHA-256 `Σ₁`. -/
def bSig1 (x : Nat) : Nat := rotr32 6 x ^^^ rotr32 11 x ^^^ rotr32 25 x

/-- SHA-256 `σ₀`. -/
def sSig0 (x : Nat) : Nat := rotr32 7 x ^^^ rotr32 18 x ^^^ (x >>> 3)

/-- SHA-256 `σ₁`. -/
def sSig1 (x : Nat) : Nat := rotr32 17 x ^^^ rotr32 19 x ^^^ (x >>> 10)

/-- The 64 SHA-256 round constants of FIPS 180-4, written in decimal. -/
def shaK : List Nat :=
  [1116352408, 1899447441, 3049323471, 3921009573, 961987163,
   1508970993, 2453635748, 2870763221, 3624381080, 310598401,
   607225278, 1426881987, 1925078388, 2162078206, 2614888103,
   3248222580, 3835390401, 4022224774, 264347078, 604807628,
   770255983, 1249150122, 1555081692, 1996064986, 2554220882,
   2821834349, 2952996808, 3210313671, 3336571891, 3584528711,
   113926993, 338241895, 666307205, 773529912, 1294757372,
   1396182291, 1695183700, 1986661051, 2177026350, 2456956037,
   2730485921, 2820302411, 3259730800, 3345764771, 3516065817,
   3600352804, 4094571909, 275423344, 430227734, 506948616,
   659060556, 883997877, 958139571, 1322822218, 1537002063,
   1747873779, 1955562222, 2024104815, 2227730452, 2361852424,
   2428436474, 2756734187, 3204031479, 3329325298]

/-- The SHA-256 initial hash value of FIPS 180-4, written in decimal. -/
def shaH0 : List Nat :=
  [1779033703, 3144134277, 1013904242, 2773480762,
   1359893119, 2600822924, 528734635, 1541459225]

/-- SHA-256 padding: append `0x80`, zeros to 56 mod 64 bytes, then the bit
length as 8 big-endian bytes. -/
def shaPad (msg : List Nat) : List Nat :=
  msg ++ (128 :: List.replicate ((119 - msg.length % 64) % 64) 0)
      ++ natToBEBytes 8 (8 * msg.length)

/-- Group bytes into big-endian 32-bit words (input length a multiple of 4). -/
def bytesToWords32 : List Nat → List Nat
  | b0 :: b1 :: b2 :: b3 :: rest =>
    ((b0 <<< 24) ||| (b1 <<< 16) ||| (b2 <<< 8) ||| b3) :: bytesToWords32 rest
  | _ => []

/-- Group 32-bit words into 16-word blocks (input length a multiple of 16). -/
def toBlocks16 : List Nat → List (List Nat)
  | w0 :: w1 :: w2 :: w3 :: w4 :: w5 :: w6 :: w7 ::
    w8 :: w9 :: w10 :: w11 :: w12 :: w13 :: w14 :: w15 :: rest =>
    [w0, w1, w2, w3, w4, w5, w6, w7, w8, w9, w10, w11, w12, w13, w14, w15]
      :: toBlocks16 rest
  | _ => []

/-- One message-schedule step; the accumulator holds `W` newest first, so
`W[t-2]`, `W[t-7]`, `W[t-15]`, `W[t-16]` sit at positions 1, 6, 14, 15. -/
def scheduleStep (acc : List Nat) : List Nat :=
  ((sSig1 (acc.getD 1 0) + acc.getD 6 0 + sSig0 (acc.getD 14 0) + acc.getD 15 0)
    % M32) :: acc

/-- The 64-entry message schedule of a 16-word block. -/
def schedule (block : List Nat) : List Nat :=
  ((List.range 48).foldl (fun acc _ => scheduleStep acc) block.reverse).reverse

/-- One SHA-256 compression round on the state `[a, b, c, d, e, f, g, h]`. -/
def compressRound (s : List Nat) (kw : Nat × Nat) : List Nat :=
  match s with
  | [a, b, c, d, e, f, g, h] =>
    let t1 := (h + bSig1 e + shaCh e f g + kw.1 + kw.2) % M32
    let t2 := (bSig0 a + shaMaj a b c) % M32
    [(t1 + t2) % M32, a, b, c, (d + t1) % M32, e, f, g]
  | s => s

/-- SHA-256 compression of one 16-word block into the running hash. -/
def compressBlock (h : List Nat) (block : List Nat) : List Nat :=
  List.zipWith (fun x y => (x + y) % M32) h
    ((shaK.zip (schedule block)).foldl compressRound h)

/-- Serialize 32-bit words into big-endian bytes. -/
def wordsToBytes (ws : List Nat) : List Nat :=
  ws.flatMap (fun w => [(w >>> 24) % 256, (w >>> 16) % 256, (w >>> 8) % 256, w % 256])

/-- SHA-256 digest (32 bytes) of a byte list; python `hashlib.sha256(m).digest()`. -/
def sha256 (msg : List Nat) : List Nat :=
  wordsToBytes ((toBlocks16 (bytesToWords32 (shaPad msg))).foldl compressBlock shaH0)

/-! ### The program -/

/-- The exceptions raised by `all_last_words_from_11` and its tools variant:
`ValueError(f"Expected exactly 11 words, got {n}.")`,
`ValueError(f"Word not in BIP39 English wordlist: '{w}'")`, and
`RuntimeError("Internal error: expected 121 bits from 11 words.")`. -/
inductive LWError
  | invalidWordCount : Nat → LWError
  | wordNotInWordlist : String → LWError
  | internalLengthMismatch : LWError

/-- The word-to-index lookup.  The source builds
`word2idx = {w: i for i, w in enumerate(mnemo.wordlist)}` and the library
validator uses `wordlist.index(w)`; on the duplicate-free reference wordlist
both give the index of the (unique) occurrence, modelled by `findIdx?`. -/
def wordIdx (wl : List String) (w : String) : Option Nat :=
  wl.findIdx? (fun x => x = w)

/-- Lines 79-83: `idxs = [word2idx[w] for w in words11]` with its `KeyError`
handler; the first word absent from the wordlist is reported. -/
def lookupIdxs (wl : List String) : List String → Except LWError (List Nat)
  | [] => .ok []
  | w :: ws =>
    match wordIdx wl w with
    | none => .error (.wordNotInWordlist w)
    | some i => (lookupIdxs wl ws).map (fun is => i :: is)

/-- The Bit Packer: `bits121 = "".join(f"{i:011b}" for i in idxs)`. -/
def bits121 (idxs : List Nat) : List Bool :=
  idxs.flatMap (fun i => padBin 11 i)

/-- Look up every word, `none` as soon as one is absent (the library validator
maps `wordlist.index` over the words inside a `try`, any `ValueError` making
the phrase invalid). -/
def wordIdxList (wl : List String) : List String → Option (List Nat)
  | [] => some []
  | w :: ws =>
    match wordIdx wl w, wordIdxList wl ws with
    | some i, some is => some (i :: is)
    | _, _ => none

/-- Modelled from the spec: the Validator (spec 4.3).  In the source it is the
external library call `mnemo.check(phrase)` (python-mnemonic), not code of this
repository.  Following spec 4.3 for a candidate 12-word phrase, already split
into its words: re-derive the 12 indices via the word-to-index lookup
(`none`, i.e. the library's `ValueError`, yields `false`), concatenate their
11-bit encodings, split the 132 bits into 128 entropy bits and 4 checksum
bits, recompute SHA-256 of the entropy packed big-endian into 16 bytes, and
compare its top 4 bits with the embedded checksum bits. -/
def checkWords (wl : List String) (ws : List String) : Bool :=
  if ws.length = 12 then
    match wordIdxList wl ws with
    | none => false
    | some idxs =>
      let b := idxs.flatMap (fun i => padBin 11 i)
      b.drop 128 == padBin 4 ((sha256 (natToBEBytes 16 (bitsToNat (b.take 128)))).headD 0 >>> 4)
  else false

/-- Loop body, line 92-93: `entropy_bits = bits121 + f"{tail:07b}"` followed by
`entropy_bytes = int(entropy_bits, 2).to_bytes(16, "big")`. -/
def entropyBytesOf (bs : List Bool) (tail : Nat) : List Nat :=
  natToBEBytes 16 (bitsToNat (bs ++ padBin 7 tail))

/-- Line 95: `checksum4 = hashlib.sha256(entropy_bytes).digest()[0] >> 4`. -/
def checksum4Of (bs : List Bool) (tail : Nat) : Nat :=
  (sha256 (entropyBytesOf bs tail)).headD 0 >>> 4

/-- Line 96: `last_index = (tail << 4) | checksum4`. -/
def lastIndexOf (bs : List Bool) (tail : Nat) : Nat :=
  (tail <<< 4) ||| checksum4Of bs tail

/-- Line 97: `last_word = mnemo.wordlist[last_index]` (in-bounds for the
2048-word reference list, since `last_index < 2048` always holds; proved
below). -/
def lastWordOf (wl : List String) (bs : List Bool) (tail : Nat) : String :=
  wl.getD (lastIndexOf bs tail) ""

/-- One record appended to `out`: `(tail, last_index, last_word, ok)` where
`ok = mnemo.check(" ".join(words11 + [last_word]))`; the Validator receives
the twelve words of that phrase. -/
def candidateFor (wl : List String) (words11 : List String) (bs : List Bool)
    (tail : Nat) : Nat × Nat × String × Bool :=
  (tail, lastIndexOf bs tail, lastWordOf wl bs tail,
   checkWords wl (words11 ++ [lastWordOf wl bs tail]))

/-- The enumerator `all_last_words_from_11(mnemo, words11)` (lines 70-104): word count check,
index lookup, 121-bit packing with its self-check, then the 128-iteration
enumeration `for tail in range(128)`. -/
def all_last_words_from_11 (wl : List String) (words11 : List String) :
    Except LWError (List (Nat × Nat × String × Bool)) :=
  if words11.length = 11 then
    match lookupIdxs wl words11 with
    | .error e => .error e
    | .ok idxs =>
      if (bits121 idxs).length = 121 then
        .ok ((List.range 128).map (candidateFor wl words11 (bits121 idxs)))
      else .error .internalLengthMismatch
  else .error (.invalidWordCount words11.length)

/-- What `main` (lines 107-132) does after printing is abstracted away:
`errorExit e` is the `except` branch printing the error and returning 2;
`indexError` is the uncaught `IndexError` raised by `valid[0]` when the
filtered list is empty (the interpreter aborts with a traceback);
`report w12 tail idx full` is the success output of lines 125-128. -/
inductive MainOutcome
  | errorExit : LWError → MainOutcome
  | indexError : MainOutcome
  | report : String → Nat → Nat → String → MainOutcome

/-- Lines 122-128 of `main`: `valid = [x for x in cands if x[3]]` followed,
with no emptiness check, by `tail, idx, w12, _ = valid[0]` and the two prints. -/
def mainFromCands (words11 : List String)
    (cands : List (Nat × Nat × String × Bool)) : MainOutcome :=
  match cands.filter (fun c => c.2.2.2) with
  | [] => .indexError
  | c :: _ =>
    .report c.2.2.1 c.1 c.2.1 (String.intercalate " " (words11 ++ [c.2.2.1]))

/-- The whole of `main` without argument parsing: run the enumeration on the normalized
words and either report (lines 116-120 error path) or hand the candidate
list to lines 122-128. -/
def main_run (wl : List String) (words : List String) : MainOutcome :=
  match all_last_words_from_11 wl words with
  | .error e => .errorExit e
  | .ok cands => mainFromCands words cands

/-! ### The spec's own description of a candidate (claim C1)

The spec describes the entropy arithmetically: the 128-bit entropy is the
121-bit prefix (the 11 indices, 11 bits each, in order) followed by the 7-bit
big-endian tail, packed most-significant-bit-first into 16 bytes.  We render
that reading directly with integer arithmetic -- prefix value
`Σ idx_k · 2048^(10-k)`, entropy value `prefix · 2^7 + tail`, byte `j` of the
packing `(value >>> 8·(15-j)) % 256` -- and prove it equal to the source's
string-of-bits construction. -/

/-- The 121-bit prefix of the spec, as a number: fold of the 11 indices. -/
def specPrefixVal (idxs : List Nat) : Nat :=
  idxs.foldl (fun a i => a * 2048 + i) 0

/-- The spec's 128-bit entropy value: prefix followed by the 7-bit tail. -/
def specEntropyVal (idxs : List Nat) (tail : Nat) : Nat :=
  specPrefixVal idxs * 128 + tail

/-- The spec's 16-byte MSB-first packing of the entropy. -/
def specEntropyBytes (idxs : List Nat) (tail : Nat) : List Nat :=
  natToBEBytes 16 (specEntropyVal idxs tail)

/-- The spec's Checksum: top 4 bits of the first byte of SHA-256 of the
16 entropy bytes. -/
def specChecksum (idxs : List Nat) (tail : Nat) : Nat :=
  (sha256 (specEntropyBytes idxs tail)).headD 0 >>> 4

/-- The spec's LastWordIndex: `(tail << 4) | checksum`. -/
def specLastIndex (idxs : List Nat) (tail : Nat) : Nat :=
  (tail <<< 4) ||| specChecksum idxs tail

/-- The spec's LastWord: the wordlist entry at LastWordIndex. -/
def specLastWord (wl : List String) (idxs : List Nat) (tail : Nat) : String :=
  wl.getD (specLastIndex idxs tail) ""

/-! ### Witness inputs -/

/-- A tiny stand-in wordlist, for witnesses that only exercise paths where the
wordlist contents are irrelevant. -/
def wlS : List String := ["apple", "banana"]

/-- Eleven valid words over `wlS` (repeated words are legal in BIP39). -/
def wsS : List String := List.replicate 11 "apple"

/-- A four-digit decimal rendering of `n`, used to build a concrete
2048-entry wordlist. -/
def numWord (n : Nat) : String :=
  String.mk [Nat.digitChar (n / 1000 % 10), Nat.digitChar (n / 100 % 10),
             Nat.digitChar (n / 10 % 10), Nat.digitChar (n % 10)]

/-- A concrete 2048-entry duplicate-free wordlist standing in for the
reference list (the spec treats the wordlist as an external given: a bijection
between 2048 words and indices 0-2047). -/
def wl2048 : List String := (List.range 2048).map numWord

/-- Eleven valid words over `wl2048`. -/
def wsB : List String := List.replicate 11 (numWord 0)

/-! ### Validation of the SHA-256 embedding against published test vectors -/

example : sha256 [] =
    [227, 176, 196, 66, 152, 252, 28, 20, 154, 251, 244, 200,
     153, 111, 185, 36, 39, 174, 65, 228, 100, 155, 147, 76,
     164, 149, 153, 27, 120, 82, 184, 85] := by decide

example : sha256 [97, 98, 99] =
    [186, 120, 22, 191, 143, 1, 207, 234, 65, 65, 64, 222,
     93, 174, 34, 35, 176, 3, 97, 163, 150, 23, 122, 156,
     180, 16, 255, 97, 242, 0, 21, 173] := by decide

/-! ### Facts about the bit-string utilities -/

theorem bitsToNat_foldl (bs : List Bool) (a : Nat) :
    bs.foldl (fun x b => 2 * x + (if b then 1 else 0)) a
      = a * 2 ^ bs.length + bitsToNat bs := by
  induction bs generalizing a with
  | nil => simp [bitsToNat]
  | cons b bs ih =>
    simp only [List.foldl_cons, List.length_cons, bitsToNat]
    rw [ih (2 * a + (if b then 1 else 0)), ih (2 * 0 + (if b then 1 else 0))]
    ring

theorem bitsToNat_append (xs ys : List Bool) :
    bitsToNat (xs ++ ys) = bitsToNat xs * 2 ^ ys.length + bitsToNat ys := by
  have h := bitsToNat_foldl ys (xs.foldl (fun x b => 2 * x + (if b then 1 else 0)) 0)
  simpa [bitsToNat, List.foldl_append] using h

theorem binDigitsGo_val : ∀ fuel n, n ≤ fuel → bitsToNat (binDigitsGo fuel n) = n := by
  intro fuel
  induction fuel with
  | zero =>
    intro n hn
    have h0 : n = 0 := Nat.le_zero.mp hn
    subst h0
    rfl
  | succ f ih =>
    intro n hn
    match n with
    | 0 => rfl
    | m + 1 =>
      rw [binDigitsGo, bitsToNat_append, ih ((m + 1) / 2) (by omega)]
      have hb : bitsToNat [((m + 1) % 2 == 1)] = (m + 1) % 2 := by
        rcases Nat.mod_two_eq_zero_or_one (m + 1) with h | h <;> simp [bitsToNat, h]
      rw [hb]
      simp only [List.length_singleton]
      omega

theorem binDigitsGo_len : ∀ fuel n w, n ≤ fuel → n < 2 ^ w →
    (binDigitsGo fuel n).length ≤ w := by
  intro fuel
  induction fuel with
  | zero =>
    intro n w hn _
    have h0 : n = 0 := Nat.le_zero.mp hn
    subst h0
    simp [binDigitsGo]
  | succ f ih =>
    intro n w hn hw
    match n with
    | 0 => simp [binDigitsGo]
    | m + 1 =>
      match w with
      | 0 => omega
      | v + 1 =>
        rw [binDigitsGo, List.length_append]
        have hpow : (2 : Nat) ^ (v + 1) = 2 ^ v * 2 := by ring
        have hhalf : (m + 1) / 2 < 2 ^ v := by
          rw [hpow] at hw
          omega
        have hl := ih ((m + 1) / 2) v (by omega) hhalf
        simp only [List.length_singleton]
        omega

theorem bitsToNat_replicate_false (k : Nat) : bitsToNat (List.replicate k false) = 0 := by
  induction k with
  | zero => rfl
  | succ k ih => simpa [bitsToNat, List.replicate_succ] using ih

theorem padBin_length (w n : Nat) (hw : 1 ≤ w) (h : n < 2 ^ w) :
    (padBin w n).length = w := by
  unfold padBin
  by_cases h0 : n = 0
  · subst h0
    simp
    omega
  · have hd : (binDigits n).length ≤ w := binDigitsGo_len n n w le_rfl h
    simp only [h0, if_false, List.length_append, List.length_replicate]
    omega

theorem bitsToNat_padBin (w n : Nat) (h : n < 2 ^ w) :
    bitsToNat (padBin w n) = n := by
  unfold padBin
  by_cases h0 : n = 0
  · subst h0
    simp only [if_true]
    rw [bitsToNat_append, bitsToNat_replicate_false]
    simp [bitsToNat]
  · simp only [h0, if_false]
    rw [bitsToNat_append, bitsToNat_replicate_false]
    simpa using binDigitsGo_val n n le_rfl

set_option maxRecDepth 2000 in
theorem lastIndex_split : ∀ t < 128, ∀ c < 16,
    padBin 11 ((t <<< 4) ||| c) = padBin 7 t ++ padBin 4 c ∧ (t <<< 4) ||| c < 2048 := by
  decide

theorem shiftRight4_lt (b : Nat) (h : b < 256) : b >>> 4 < 16 := by
  rw [Nat.shiftRight_eq_div_pow]
  omega

theorem wordsToBytes_lt (ws : List Nat) : ∀ b ∈ wordsToBytes ws, b < 256 := by
  intro b hb
  simp only [wordsToBytes, List.mem_flatMap, List.mem_cons, List.not_mem_nil,
    or_false] at hb
  obtain ⟨w, -, hw⟩ := hb
  rcases hw with h | h | h | h <;> subst h <;> exact Nat.mod_lt _ (by omega)

theorem sha256_headD_lt (msg : List Nat) : (sha256 msg).headD 0 < 256 := by
  have h : ∀ b ∈ sha256 msg, b < 256 := wordsToBytes_lt _
  cases hs : sha256 msg with
  | nil => simp
  | cons x xs =>
    have hx : x ∈ sha256 msg := by rw [hs]; exact List.mem_cons_self x xs
    simpa using h x hx

theorem checksum4Of_lt (bs : List Bool) (tail : Nat) : checksum4Of bs tail < 16 :=
  shiftRight4_lt _ (sha256_headD_lt _)

theorem specChecksum_lt (idxs : List Nat) (tail : Nat) : specChecksum idxs tail < 16 :=
  shiftRight4_lt _ (sha256_headD_lt _)

/-! ### Facts about the wordlist lookups -/

theorem wordIdx_cons (x : String) (xs : List String) (w : String) :
    wordIdx (x :: xs) w
      = if x = w then some 0 else (wordIdx xs w).map (fun i => i + 1) := by
  unfold wordIdx
  rw [List.findIdx?_cons]
  by_cases hx : x = w
  · simp [hx]
  · have hd : (decide (x = w)) = false := decide_eq_false hx
    rw [if_neg hx]
    simp [hd]

theorem wordIdx_none_iff (wl : List String) (w : String) :
    wordIdx wl w = none ↔ ¬ w ∈ wl := by
  unfold wordIdx
  rw [List.findIdx?_eq_none_iff]
  constructor
  · intro h hw
    simpa using h w hw
  · intro h x hx
    simp only [decide_eq_false_iff_not]
    intro he
    exact h (he ▸ hx)

theorem wordIdx_lt (wl : List String) (w : String) (i : Nat)
    (h : wordIdx wl w = some i) : i < wl.length :=
  (List.findIdx?_eq_some_iff_findIdx_eq.mp h).1

theorem wordIdx_some_of_mem (wl : List String) (w : String) (h : w ∈ wl) :
    ∃ i, wordIdx wl w = some i := by
  induction wl with
  | nil => cases h
  | cons x xs ih =>
    by_cases hx : x = w
    · exact ⟨0, by rw [wordIdx_cons, if_pos hx]⟩
    · have hw : w ∈ xs := by
        rcases List.mem_cons.mp h with h1 | h1
        · exact absurd h1.symm hx
        · exact h1
      obtain ⟨i, hi⟩ := ih hw
      exact ⟨i + 1, by rw [wordIdx_cons, if_neg hx, hi]; rfl⟩

theorem getD_mem_of_lt {α : Type} (l : List α) (d : α) (i : Nat)
    (h : i < l.length) : l.getD i d ∈ l := by
  induction l generalizing i with
  | nil => simp at h
  | cons x xs ih =>
    cases i with
    | zero => simp
    | succ j =>
      have hj : j < xs.length := by simpa using h
      rw [List.getD_cons_succ]
      exact List.mem_cons_of_mem _ (ih j hj)

theorem wordIdx_getD (wl : List String) (hnd : wl.Nodup) (i : Nat)
    (hi : i < wl.length) : wordIdx wl (wl.getD i "") = some i := by
  induction wl generalizing i with
  | nil => simp at hi
  | cons x xs ih =>
    rcases List.nodup_cons.mp hnd with ⟨hx, hxs⟩
    cases i with
    | zero => rw [List.getD_cons_zero, wordIdx_cons, if_pos rfl]
    | succ j =>
      have hj : j < xs.length := by simpa using hi
      have hne : ¬ x = xs.getD j "" := by
        intro he
        exact hx (he ▸ getD_mem_of_lt xs "" j hj)
      rw [List.getD_cons_succ, wordIdx_cons, if_neg hne, ih hxs j hj]
      rfl

theorem lookupIdxs_bounds (wl : List String) (ws : List String) (idxs : List Nat)
    (h : lookupIdxs wl ws = .ok idxs) :
    idxs.length = ws.length ∧ ∀ i ∈ idxs, i < wl.length := by
  induction ws generalizing idxs with
  | nil =>
    simp only [lookupIdxs, Except.ok.injEq] at h
    subst h
    simp
  | cons w ws ih =>
    simp only [lookupIdxs] at h
    cases hw : wordIdx wl w with
    | none => simp [hw] at h
    | some i =>
      cases hr : lookupIdxs wl ws with
      | error e => simp [hw, hr, Except.map] at h
      | ok is =>
        simp only [hw, hr, Except.map, Except.ok.injEq] at h
        subst h
        obtain ⟨hlen, hb⟩ := ih is hr
        refine ⟨by simp [hlen], ?_⟩
        intro j hj
        rcases List.mem_cons.mp hj with rfl | hj
        · exact wordIdx_lt wl w j hw
        · exact hb j hj

theorem lookupIdxs_ok_of_mem (wl : List String) (ws : List String)
    (h : ∀ w ∈ ws, w ∈ wl) : ∃ idxs, lookupIdxs wl ws = .ok idxs := by
  induction ws with
  | nil => exact ⟨[], rfl⟩
  | cons w ws ih =>
    obtain ⟨i, hi⟩ := wordIdx_some_of_mem wl w (h w (List.mem_cons_self w ws))
    obtain ⟨idxs, hid⟩ := ih (fun x hx => h x (List.mem_cons_of_mem _ hx))
    exact ⟨i :: idxs, by simp [lookupIdxs, hi, hid, Except.map]⟩

theorem lookupIdxs_wordIdxList (wl : List String) (ws : List String) (idxs : List Nat)
    (h : lookupIdxs wl ws = .ok idxs) : wordIdxList wl ws = some idxs := by
  induction ws generalizing idxs with
  | nil =>
    simp only [lookupIdxs, Except.ok.injEq] at h
    subst h
    rfl
  | cons w ws ih =>
    simp only [lookupIdxs] at h
    cases hw : wordIdx wl w with
    | none => simp [hw] at h
    | some i =>
      cases hr : lookupIdxs wl ws with
      | error e => simp [hw, hr, Except.map] at h
      | ok is =>
        simp only [hw, hr, Except.map, Except.ok.injEq] at h
        subst h
        simp [wordIdxList, hw, ih is hr]

theorem wordIdxList_append_one (wl : List String) (ws : List String) (idxs : List Nat)
    (hm : wordIdxList wl ws = some idxs) (lw : String) (li : Nat)
    (hl : wordIdx wl lw = some li) :
    wordIdxList wl (ws ++ [lw]) = some (idxs ++ [li]) := by
  induction ws generalizing idxs with
  | nil =>
    simp only [wordIdxList, Option.some.injEq] at hm
    subst hm
    simp [wordIdxList, hl]
  | cons w ws ih =>
    cases hw : wordIdx wl w with
    | none => simp [wordIdxList, hw] at hm
    | some i =>
      cases hr : wordIdxList wl ws with
      | none => simp [wordIdxList, hw, hr] at hm
      | some is =>
        have hm' : i :: is = idxs := by simpa [wordIdxList, hw, hr] using hm
        subst hm'
        simp only [List.cons_append]
        simp [wordIdxList, hw, ih is hr]

theorem lookupIdxs_absent (wl : List String) (ws : List String) (b : String)
    (h : ws.find? (fun w => (wordIdx wl w).isNone) = some b) :
    lookupIdxs wl ws = .error (.wordNotInWordlist b) := by
  induction ws with
  | nil => simp at h
  | cons w ws ih =>
    by_cases hw : (wordIdx wl w).isNone
    · have hb : w = b := by simpa [List.find?_cons, hw] using h
      subst hb
      have hn : wordIdx wl w = none := Option.isNone_iff_eq_none.mp hw
      simp [lookupIdxs, hn]
    · have hfind : ws.find? (fun w => (wordIdx wl w).isNone) = some b := by
        simpa [List.find?_cons, hw] using h
      cases hwi : wordIdx wl w with
      | none => exact absurd (by simp [hwi]) hw
      | some i => simp [lookupIdxs, hwi, ih hfind, Except.map]

/-! ### The Bit Packer and the spec's arithmetic reading of the entropy -/

theorem two_pow_11 : (2 : Nat) ^ 11 = 2048 := by norm_num

theorem two_pow_7 : (2 : Nat) ^ 7 = 128 := by norm_num

theorem bits121_length (idxs : List Nat) (h : ∀ i ∈ idxs, i < 2048) :
    (bits121 idxs).length = 11 * idxs.length := by
  induction idxs with
  | nil => rfl
  | cons x xs ih =>
    have hx : (padBin 11 x).length = 11 :=
      padBin_length 11 x (by omega)
        (by rw [two_pow_11]; exact h x (List.mem_cons_self x xs))
    have ihh := ih (fun i hi => h i (List.mem_cons_of_mem _ hi))
    show (padBin 11 x ++ bits121 xs).length = 11 * (xs.length + 1)
    rw [List.length_append, hx, ihh]
    ring

theorem specPrefixVal_foldl (idxs : List Nat) (a : Nat) :
    idxs.foldl (fun x i => x * 2048 + i) a
      = a * 2048 ^ idxs.length + specPrefixVal idxs := by
  induction idxs generalizing a with
  | nil => simp [specPrefixVal]
  | cons x xs ih =>
    simp only [List.foldl_cons, specPrefixVal, List.length_cons]
    rw [ih (a * 2048 + x), ih (0 * 2048 + x)]
    ring

theorem specPrefixVal_cons (x : Nat) (xs : List Nat) :
    specPrefixVal (x :: xs) = x * 2048 ^ xs.length + specPrefixVal xs := by
  show List.foldl (fun a i => a * 2048 + i) (0 * 2048 + x) xs = _
  rw [specPrefixVal_foldl]
  ring

theorem bits121_val (idxs : List Nat) (h : ∀ i ∈ idxs, i < 2048) :
    bitsToNat (bits121 idxs) = specPrefixVal idxs := by
  induction idxs with
  | nil => rfl
  | cons x xs ih =>
    have hmem := h x (List.mem_cons_self x xs)
    have hxs : ∀ i ∈ xs, i < 2048 := fun i hi => h i (List.mem_cons_of_mem _ hi)
    have hx11 : x < 2 ^ 11 := by rw [two_pow_11]; exact hmem
    have hlen := bits121_length xs hxs
    show bitsToNat (padBin 11 x ++ bits121 xs) = specPrefixVal (x :: xs)
    rw [bitsToNat_append, bitsToNat_padBin 11 x hx11, ih hxs, hlen,
      specPrefixVal_cons]
    have hp : (2 : Nat) ^ (11 * xs.length) = 2048 ^ xs.length := by
      rw [pow_mul]
      norm_num
    rw [hp]

theorem entropyBytes_eq_spec (idxs : List Nat) (tail : Nat)
    (hi : ∀ i ∈ idxs, i < 2048) (ht : tail < 128) :
    entropyBytesOf (bits121 idxs) tail = specEntropyBytes idxs tail := by
  unfold entropyBytesOf specEntropyBytes
  congr 1
  rw [bitsToNat_append, bits121_val idxs hi,
      padBin_length 7 tail (by omega) (by rw [two_pow_7]; exact ht),
      bitsToNat_padBin 7 tail (by rw [two_pow_7]; exact ht)]
  rw [specEntropyVal, two_pow_7]

theorem checksum4_eq_spec (idxs : List Nat) (tail : Nat)
    (hi : ∀ i ∈ idxs, i < 2048) (ht : tail < 128) :
    checksum4Of (bits121 idxs) tail = specChecksum idxs tail := by
  unfold checksum4Of specChecksum
  rw [entropyBytes_eq_spec idxs tail hi ht]

theorem lastIndex_eq_spec (idxs : List Nat) (tail : Nat)
    (hi : ∀ i ∈ idxs, i < 2048) (ht : tail < 128) :
    lastIndexOf (bits121 idxs) tail = specLastIndex idxs tail := by
  unfold lastIndexOf specLastIndex
  rw [checksum4_eq_spec idxs tail hi ht]

theorem lastWord_eq_spec (wl : List String) (idxs : List Nat) (tail : Nat)
    (hi : ∀ i ∈ idxs, i < 2048) (ht : tail < 128) :
    lastWordOf wl (bits121 idxs) tail = specLastWord wl idxs tail := by
  unfold lastWordOf specLastWord
  rw [lastIndex_eq_spec idxs tail hi ht]

theorem lastIndexOf_lt (bs : List Bool) (tail : Nat) (ht : tail < 128) :
    lastIndexOf bs tail < 2048 :=
  (lastIndex_split tail ht _ (checksum4Of_lt bs tail)).2

/-! ### Self-consistency: every enumerated candidate passes the Validator -/

theorem candidate_ok (wl : List String) (ws : List String) (idxs : List Nat)
    (hwl : wl.length = 2048) (hnd : wl.Nodup)
    (hlk : lookupIdxs wl ws = .ok idxs) (hlen : ws.length = 11)
    (tail : Nat) (ht : tail < 128) :
    checkWords wl (ws ++ [lastWordOf wl (bits121 idxs) tail]) = true := by
  obtain ⟨hilen, hib⟩ := lookupIdxs_bounds wl ws idxs hlk
  have hib' : ∀ i ∈ idxs, i < 2048 := fun i hi => hwl ▸ hib i hi
  have hcs : checksum4Of (bits121 idxs) tail < 16 := checksum4Of_lt _ _
  have hsplit := lastIndex_split tail ht _ hcs
  have hli : lastIndexOf (bits121 idxs) tail < wl.length := by
    rw [hwl]
    exact hsplit.2
  have hlw : wordIdx wl (lastWordOf wl (bits121 idxs) tail)
      = some (lastIndexOf (bits121 idxs) tail) :=
    wordIdx_getD wl hnd _ hli
  have hmap : wordIdxList wl (ws ++ [lastWordOf wl (bits121 idxs) tail])
      = some (idxs ++ [lastIndexOf (bits121 idxs) tail]) :=
    wordIdxList_append_one wl ws idxs
      (lookupIdxs_wordIdxList wl ws idxs hlk) _ _ hlw
  have h12 : (ws ++ [lastWordOf wl (bits121 idxs) tail]).length = 12 := by
    simp [hlen]
  have h121 : (bits121 idxs).length = 121 := by
    rw [bits121_length idxs hib', hilen, hlen]
  have h7 : (padBin 7 tail).length = 7 :=
    padBin_length 7 tail (by omega) (by rw [two_pow_7]; exact ht)
  have hflat : (idxs ++ [lastIndexOf (bits121 idxs) tail]).flatMap (fun i => padBin 11 i)
      = (bits121 idxs ++ padBin 7 tail) ++ padBin 4 (checksum4Of (bits121 idxs) tail) := by
    rw [List.flatMap_append]
    show bits121 idxs ++ (padBin 11 (lastIndexOf (bits121 idxs) tail) ++ []) = _
    rw [List.append_nil]
    show bits121 idxs
        ++ padBin 11 ((tail <<< 4) ||| checksum4Of (bits121 idxs) tail) = _
    rw [hsplit.1, List.append_assoc]
  have hlen128 : (bits121 idxs ++ padBin 7 tail).length = 128 := by
    rw [List.length_append, h121, h7]
  unfold checkWords
  rw [if_pos h12, hmap]
  show (((idxs ++ [lastIndexOf (bits121 idxs) tail]).flatMap (fun i => padBin 11 i)).drop 128
      == padBin 4 ((sha256 (natToBEBytes 16 (bitsToNat
        (((idxs ++ [lastIndexOf (bits121 idxs) tail]).flatMap
          (fun i => padBin 11 i)).take 128)))).headD 0 >>> 4)) = true
  rw [hflat, List.drop_left' hlen128, List.take_left' hlen128]
  show (padBin 4 (checksum4Of (bits121 idxs) tail)
      == padBin 4 (checksum4Of (bits121 idxs) tail)) = true
  simp

/-! ### Running the enumerator -/

theorem enum_ok (wl ws : List String) (idxs : List Nat) (hwl : wl.length ≤ 2048)
    (hlen : ws.length = 11) (hlk : lookupIdxs wl ws = .ok idxs) :
    all_last_words_from_11 wl ws
      = .ok ((List.range 128).map (candidateFor wl ws (bits121 idxs))) := by
  obtain ⟨hilen, hib⟩ := lookupIdxs_bounds wl ws idxs hlk
  have h121 : (bits121 idxs).length = 121 := by
    rw [bits121_length idxs (fun i hi => lt_of_lt_of_le (hib i hi) hwl), hilen, hlen]
  unfold all_last_words_from_11
  rw [if_pos hlen, hlk]
  show (if (bits121 idxs).length = 121 then _ else _) = _
  rw [if_pos h121]

theorem enum_ok_inv (wl ws : List String) (cands : List (Nat × Nat × String × Bool))
    (h : all_last_words_from_11 wl ws = .ok cands) :
    ∃ idxs, lookupIdxs wl ws = .ok idxs ∧
      cands = (List.range 128).map (candidateFor wl ws (bits121 idxs)) := by
  unfold all_last_words_from_11 at h
  split at h
  · split at h
    · cases h
    · split at h
      · rename_i idxs heq _
        refine ⟨idxs, heq, ?_⟩
        injection h with h
        exact h.symm
      · cases h
  · cases h

/-! ### Properties of the concrete 2048-entry wordlist -/

theorem digitChar_inj :
    ∀ a < 10, ∀ b < 10, Nat.digitChar a = Nat.digitChar b → a = b := by decide

theorem numWord_inj (n m : Nat) (hn : n < 2048) (hm : m < 2048)
    (h : numWord n = numWord m) : n = m := by
  unfold numWord at h
  injection h with hd
  injection hd with h1 hd
  injection hd with h2 hd
  injection hd with h3 hd
  injection hd with h4 hd
  have e1 := digitChar_inj (n / 1000 % 10) (by omega) (m / 1000 % 10) (by omega) h1
  have e2 := digitChar_inj (n / 100 % 10) (by omega) (m / 100 % 10) (by omega) h2
  have e3 := digitChar_inj (n / 10 % 10) (by omega) (m / 10 % 10) (by omega) h3
  have e4 := digitChar_inj (n % 10) (by omega) (m % 10) (by omega) h4
  omega

theorem wl2048_length : wl2048.length = 2048 := by
  unfold wl2048
  rw [List.length_map, List.length_range]

theorem wl2048_nodup : wl2048.Nodup := by
  unfold wl2048
  refine List.Nodup.map_on ?_ (List.nodup_range 2048)
  intro x hx y hy hxy
  exact numWord_inj x y (List.mem_range.mp hx) (List.mem_range.mp hy) hxy

theorem numWord0_mem : numWord 0 ∈ wl2048 := by
  unfold wl2048
  exact List.mem_map_of_mem numWord (List.mem_range.mpr (by omega))

theorem wsB_mem : ∀ w ∈ wsB, w ∈ wl2048 := by
  intro w hw
  rw [List.eq_of_mem_replicate hw]
  exact numWord0_mem

/-! ### A counting helper -/

theorem two_le_filter_of_take2 {α : Type} (l : List α) (p : α → Bool)
    (h2 : 2 ≤ l.length) (hp : (l.take 2).all p = true) :
    2 ≤ (l.filter p).length := by
  cases l with
  | nil => simp at h2
  | cons a l' =>
    cases l' with
    | nil => simp at h2
    | cons b t =>
      have hq : (List.take 2 (a :: b :: t)) = [a, b] := rfl
      rw [hq] at hp
      simp only [List.all_cons, List.all_nil, Bool.and_true, Bool.and_eq_true] at hp
      rw [List.filter_cons_of_pos hp.1, List.filter_cons_of_pos hp.2]
      simp only [List.length_cons]
      omega

/-! ### The claims -/

/-- C1: for every tail in [0, 127], the enumerator computes the candidate
exactly as the spec describes it: the 128-bit entropy is the 121-bit prefix
followed by the 7-bit big-endian encoding of the tail, packed most
significant bit first into 16 bytes; the Checksum is the top 4 bits of the
first byte of SHA-256 of those 16 bytes; LastWordIndex is
`(tail <<< 4) ||| checksum`; and LastWord is the wordlist entry at
LastWordIndex.  The spec side is rendered arithmetically by `specLastIndex`
and `specLastWord`, the code side is the candidate produced at position
`tail` of the enumerator's output. -/
theorem c1_candidate_matches_spec (wl ws : List String) (idxs : List Nat)
    (hwl : wl.length ≤ 2048) (hlen : ws.length = 11)
    (hlk : lookupIdxs wl ws = .ok idxs) (tail : Nat) (ht : tail < 128) :
    ∃ cands, all_last_words_from_11 wl ws = .ok cands ∧
      cands[tail]?.map (fun c => (c.1, c.2.1, c.2.2.1))
        = some (tail, specLastIndex idxs tail, specLastWord wl idxs tail) := by
  refine ⟨_, enum_ok wl ws idxs hwl hlen hlk, ?_⟩
  obtain ⟨hilen, hib⟩ := lookupIdxs_bounds wl ws idxs hlk
  have hib' : ∀ i ∈ idxs, i < 2048 := fun i hi => lt_of_lt_of_le (hib i hi) hwl
  rw [List.getElem?_map, List.getElem?_range ht]
  show some ((candidateFor wl ws (bits121 idxs) tail).1,
      (candidateFor wl ws (bits121 idxs) tail).2.1,
      (candidateFor wl ws (bits121 idxs) tail).2.2.1) = _
  show some (tail, lastIndexOf (bits121 idxs) tail, lastWordOf wl (bits121 idxs) tail) = _
  rw [lastIndex_eq_spec idxs tail hib' ht, lastWord_eq_spec wl idxs tail hib' ht]

/-- Witness for C1 at a concrete input: the two-word stand-in wordlist, eleven
times its first word, tail 5. -/
theorem c1_witness :
    wlS.length ≤ 2048 ∧ wsS.length = 11 ∧
      lookupIdxs wlS wsS = .ok (List.replicate 11 0) ∧ (5 : Nat) < 128 ∧
      (∃ cands, all_last_words_from_11 wlS wsS = .ok cands ∧
        cands[5]?.map (fun c => (c.1, c.2.1, c.2.2.1))
          = some (5, specLastIndex (List.replicate 11 0) 5,
              specLastWord wlS (List.replicate 11 0) 5)) :=
  ⟨by decide, by rfl, by rfl, by decide,
   c1_candidate_matches_spec wlS wsS (List.replicate 11 0) (by decide) (by rfl)
     (by rfl) 5 (by decide)⟩

/-- C2: for 11 words all in the wordlist the enumerator returns exactly 128
candidates, ordered by ascending tail and covering {0, ..., 127} exactly
(their tail projections are literally `List.range 128`), and the 7-bit
encodings of the boundary tails 0 and 127 are the all-zero and all-one
strings. -/
theorem c2_exhaustive_tails (wl ws : List String)
    (hwl : wl.length ≤ 2048) (hlen : ws.length = 11)
    (hmem : ∀ w ∈ ws, w ∈ wl) :
    ∃ cands, all_last_words_from_11 wl ws = .ok cands ∧
      cands.length = 128 ∧ cands.map (fun c => c.1) = List.range 128 ∧
      padBin 7 0 = List.replicate 7 false ∧
      padBin 7 127 = List.replicate 7 true := by
  obtain ⟨idxs, hlk⟩ := lookupIdxs_ok_of_mem wl ws hmem
  refine ⟨_, enum_ok wl ws idxs hwl hlen hlk, by simp, ?_, by decide, by decide⟩
  rw [List.map_map]
  have hc : ∀ t ∈ List.range 128,
      ((fun c => c.1) ∘ candidateFor wl ws (bits121 idxs)) t = id t :=
    fun t _ => rfl
  rw [List.map_congr_left hc, List.map_id]

/-- Witness for C2 at a concrete input. -/
theorem c2_witness :
    wlS.length ≤ 2048 ∧ wsS.length = 11 ∧ (∀ w ∈ wsS, w ∈ wlS) ∧
      (∃ cands, all_last_words_from_11 wlS wsS = .ok cands ∧
        cands.length = 128 ∧ cands.map (fun c => c.1) = List.range 128 ∧
        padBin 7 0 = List.replicate 7 false ∧
        padBin 7 127 = List.replicate 7 true) :=
  ⟨by decide, by rfl, by decide,
   c2_exhaustive_tails wlS wsS (by decide) (by rfl) (by decide)⟩

/-- C3: for a 2048-entry duplicate-free wordlist (the reference wordlist
invariant) and any 11 words from it, the Validator's independent
recomputation succeeds on every produced candidate: every candidate's
IsValid flag is true. -/
theorem c3_all_candidates_validate (wl ws : List String)
    (hwl : wl.length = 2048) (hnd : wl.Nodup) (hlen : ws.length = 11)
    (hmem : ∀ w ∈ ws, w ∈ wl) :
    ∃ cands, all_last_words_from_11 wl ws = .ok cands ∧
      ∀ c ∈ cands, c.2.2.2 = true := by
  obtain ⟨idxs, hlk⟩ := lookupIdxs_ok_of_mem wl ws hmem
  refine ⟨_, enum_ok wl ws idxs (le_of_eq hwl) hlen hlk, ?_⟩
  intro c hc
  obtain ⟨t, htm, rfl⟩ := List.mem_map.mp hc
  exact candidate_ok wl ws idxs hwl hnd hlk hlen t (List.mem_range.mp htm)

/-- Witness for C3 at the concrete 2048-entry wordlist. -/
theorem c3_witness :
    wl2048.length = 2048 ∧ wl2048.Nodup ∧ wsB.length = 11 ∧
      (∀ w ∈ wsB, w ∈ wl2048) ∧
      (∃ cands, all_last_words_from_11 wl2048 wsB = .ok cands ∧
        ∀ c ∈ cands, c.2.2.2 = true) :=
  ⟨wl2048_length, wl2048_nodup, by rfl, wsB_mem,
   c3_all_candidates_validate wl2048 wsB wl2048_length wl2048_nodup (by rfl) wsB_mem⟩

set_option maxRecDepth 100000 in
set_option maxHeartbeats 2000000 in
/-- C4, counterexample: on a 2048-entry duplicate-free wordlist with 11 valid
words the claim "exactly one of the 128 produced candidates has
IsValid = true, and more than one never occurs" is false: the enumeration
succeeds, at least two valid candidates occur, and the number of valid
candidates is not one. -/
theorem c4_counterexample :
    (all_last_words_from_11 wl2048 wsB).isOk = true ∧
      2 ≤ (((all_last_words_from_11 wl2048 wsB).toOption.getD []).filter
        (fun c => c.2.2.2)).length ∧
      ¬ (((all_last_words_from_11 wl2048 wsB).toOption.getD []).filter
        (fun c => c.2.2.2)).length = 1 := by
  have h2 : 2 ≤ (((all_last_words_from_11 wl2048 wsB).toOption.getD []).filter
      (fun c => c.2.2.2)).length := by
    apply two_le_filter_of_take2
    · decide
    · rfl
  exact ⟨rfl, h2, by omega⟩

/-- C4 as amended: on a 2048-entry duplicate-free wordlist, for any 11 valid
words all 128 produced candidates have IsValid = true, so the number of valid
candidates is always 128 (never exactly one). -/
theorem c4_amended_all_128_valid (wl ws : List String)
    (hwl : wl.length = 2048) (hnd : wl.Nodup) (hlen : ws.length = 11)
    (hmem : ∀ w ∈ ws, w ∈ wl) :
    ∃ cands, all_last_words_from_11 wl ws = .ok cands ∧
      (cands.filter (fun c => c.2.2.2)).length = 128 := by
  obtain ⟨idxs, hlk⟩ := lookupIdxs_ok_of_mem wl ws hmem
  refine ⟨_, enum_ok wl ws idxs (le_of_eq hwl) hlen hlk, ?_⟩
  rw [List.filter_eq_self.mpr, List.length_map, List.length_range]
  intro c hc
  obtain ⟨t, htm, rfl⟩ := List.mem_map.mp hc
  exact candidate_ok wl ws idxs hwl hnd hlk hlen t (List.mem_range.mp htm)

/-- Witness for the amended C4 at the concrete 2048-entry wordlist. -/
theorem c4_witness :
    wl2048.length = 2048 ∧ wl2048.Nodup ∧ wsB.length = 11 ∧
      (∀ w ∈ wsB, w ∈ wl2048) ∧
      (∃ cands, all_last_words_from_11 wl2048 wsB = .ok cands ∧
        (cands.filter (fun c => c.2.2.2)).length = 128) :=
  ⟨wl2048_length, wl2048_nodup, by rfl, wsB_mem,
   c4_amended_all_128_valid wl2048 wsB wl2048_length wl2048_nodup (by rfl) wsB_mem⟩

/-- C5: any word count other than 11 makes the enumeration fail with
InvalidWordCount carrying the actual count, producing no candidates. -/
theorem c5_invalid_word_count (wl ws : List String) (h : ¬ ws.length = 11) :
    all_last_words_from_11 wl ws = .error (.invalidWordCount ws.length) := by
  unfold all_last_words_from_11
  rw [if_neg h]

/-- Witness for C5 with a one-word input. -/
theorem c5_witness :
    ¬ (["apple"] : List String).length = 11 ∧
      all_last_words_from_11 wlS ["apple"]
        = .error (.invalidWordCount (["apple"] : List String).length) :=
  ⟨by decide, c5_invalid_word_count wlS ["apple"] (by decide)⟩

/-- C6: with 11 words of which some are not in the wordlist, the enumeration
fails with WordNotInWordlist naming the first offending token (which is in
the input and not in the wordlist), before any enumeration output exists. -/
theorem c6_word_not_in_wordlist (wl ws : List String) (b : String)
    (hlen : ws.length = 11)
    (hfind : ws.find? (fun w => (wordIdx wl w).isNone) = some b) :
    all_last_words_from_11 wl ws = .error (.wordNotInWordlist b) ∧
      b ∈ ws ∧ ¬ b ∈ wl := by
  have herr := lookupIdxs_absent wl ws b hfind
  refine ⟨?_, List.mem_of_find?_eq_some hfind, ?_⟩
  · unfold all_last_words_from_11
    rw [if_pos hlen, herr]
  · have hp := List.find?_some hfind
    exact (wordIdx_none_iff wl b).mp (Option.isNone_iff_eq_none.mp hp)

/-- Input with ten valid words and an invalid token for the C6 witness. -/
def wsF : List String := List.replicate 10 "apple" ++ ["zzz"]

/-- Witness for C6 at a concrete input containing the unknown token. -/
theorem c6_witness :
    wsF.length = 11 ∧
      wsF.find? (fun w => (wordIdx wlS w).isNone) = some "zzz" ∧
      (all_last_words_from_11 wlS wsF = .error (.wordNotInWordlist "zzz") ∧
        "zzz" ∈ wsF ∧ ¬ "zzz" ∈ wlS) :=
  ⟨by rfl, by rfl, c6_word_not_in_wordlist wlS wsF "zzz" (by rfl) (by rfl)⟩

/-- C7: with exactly 11 indices, each in [0, 2047], the Bit Packer output has
exactly 121 bits, and consequently the enumeration never fails with the
internal length mismatch. -/
theorem c7_packer_length (idxs : List Nat) (h1 : idxs.length = 11)
    (h2 : ∀ i ∈ idxs, i < 2048) :
    (bits121 idxs).length = 121 ∧
      ∀ wl ws, ws.length = 11 → lookupIdxs wl ws = .ok idxs →
        ¬ all_last_words_from_11 wl ws = .error .internalLengthMismatch := by
  have hlen : (bits121 idxs).length = 121 := by
    rw [bits121_length idxs h2, h1]
  refine ⟨hlen, ?_⟩
  intro wl ws hws hlk hcon
  have hok : all_last_words_from_11 wl ws
      = .ok ((List.range 128).map (candidateFor wl ws (bits121 idxs))) := by
    unfold all_last_words_from_11
    rw [if_pos hws, hlk]
    show (if (bits121 idxs).length = 121 then _ else _) = _
    rw [if_pos hlen]
  rw [hok] at hcon
  cases hcon

/-- Witness for C7 at the largest in-range indices. -/
theorem c7_witness :
    (List.replicate 11 2047).length = 11 ∧
      (∀ i ∈ List.replicate 11 2047, i < 2048) ∧
      ((bits121 (List.replicate 11 2047)).length = 121 ∧
        ∀ wl ws, ws.length = 11 → lookupIdxs wl ws = .ok (List.replicate 11 2047) →
          ¬ all_last_words_from_11 wl ws = .error .internalLengthMismatch) :=
  ⟨by rfl, by decide, c7_packer_length (List.replicate 11 2047) (by rfl) (by decide)⟩

/-- C8: lines 122-128 of `main` have no handling for the zero-valid outcome;
on a candidate list with no valid candidate, `valid[0]` raises an uncaught
IndexError (a crash) instead of informing the caller explicitly, contrary to
the spec's requirement. -/
theorem c8_zero_valid_crashes (ws : List String)
    (cands : List (Nat × Nat × String × Bool))
    (h : cands.filter (fun c => c.2.2.2) = []) :
    mainFromCands ws cands = .indexError := by
  unfold mainFromCands
  rw [h]

/-- Witness for C8 at a concrete all-invalid candidate list. -/
theorem c8_witness :
    (([(0, 0, "x", false)] : List (Nat × Nat × String × Bool)).filter
        (fun c => c.2.2.2) = []) ∧
      mainFromCands [] [(0, 0, "x", false)] = .indexError :=
  ⟨by rfl, c8_zero_valid_crashes [] [(0, 0, "x", false)] (by rfl)⟩

/-- C9: the pipeline is deterministic; two applications of the enumeration
(and of the whole of main) to equal inputs yield equal results. -/
theorem c9_deterministic (wl wl' ws ws' : List String)
    (h1 : wl = wl') (h2 : ws = ws') :
    all_last_words_from_11 wl ws = all_last_words_from_11 wl' ws' ∧
      main_run wl ws = main_run wl' ws' := by
  subst h1
  subst h2
  exact ⟨rfl, rfl⟩

/-- Witness for C9 at a concrete input. -/
theorem c9_witness :
    all_last_words_from_11 wlS wsS = all_last_words_from_11 wlS wsS ∧
      main_run wlS wsS = main_run wlS wsS :=
  c9_deterministic wlS wlS wsS wsS rfl rfl

/-- C10: every candidate record in any successful enumeration output carries
`last_index = (tail <<< 4) ||| checksum4 < 2048`, so the lookup
`wordlist[last_index]` into the 2048-entry reference wordlist is always in
bounds. -/
theorem c10_lastindex_bound (wl ws : List String)
    (cands : List (Nat × Nat × String × Bool))
    (h : all_last_words_from_11 wl ws = .ok cands) :
    ∀ c ∈ cands, c.2.1 < 2048 := by
  obtain ⟨idxs, -, rfl⟩ := enum_ok_inv wl ws cands h
  intro c hc
  obtain ⟨t, htm, rfl⟩ := List.mem_map.mp hc
  exact lastIndexOf_lt _ t (List.mem_range.mp htm)

/-- Witness for C10 at a concrete input. -/
theorem c10_witness :
    all_last_words_from_11 wlS wsS
        = .ok ((all_last_words_from_11 wlS wsS).toOption.getD []) ∧
      ∀ c ∈ (all_last_words_from_11 wlS wsS).toOption.getD [], c.2.1 < 2048 :=
  ⟨rfl, c10_lastindex_bound wlS wsS _ rfl⟩

end Bip39LastWord
